import Mathlib

/-!
Verification of the consistent-hashing shard router in
`src/database/sharding/main.py`.

The Python module builds a hash ring (`ConsistentHashing`), resolves keys to
shards (`get_node`), opens per-shard sessions (`get_session`) and implements
the `create_user` / `get_user` endpoints on top of them.  Every definition
below is a shallow embedding of the corresponding Python construct:

* the Python `dict` `self.ring` is an association list `Ring` whose insert
  operation overwrites the value of an existing key in place and appends a
  fresh key at the end, exactly like CPython dictionaries;
* the digest `_hash` calls `hashlib.md5`, an external library function, so it
  is a parameter `hash : String → Nat` of every definition; all theorems are
  proved for every digest function;
* Python `sorted(...)` is `List.insertionSort (· ≤ ·)`, `min(...)` is
  `listMin` (a left fold of `Nat.min`, as CPython's `min` computes it),
  `range(n)` is `pyRange` (empty for non-positive `n`);
* dictionary subscription `self.ring[k]`, which raises `KeyError` on a
  missing key, is the `Except`-valued `pyIndex`;
* raised exceptions are `Except.error` values; the `try/except/finally`
  blocks of the endpoints are encoded by explicit case analysis, and the
  session-level side effects are recorded in an event trace.
-/

namespace Sharding

/-- The ring dictionary of `ConsistentHashing`: `Dict[int, str]` as an
association list in insertion order. -/
abbrev Ring := List (Nat × String)

/-- CPython `d[k] = v` on a dict: overwrite the value of an existing key in
place, otherwise append the new pair at the end. -/
def dictInsert (d : Ring) (k : Nat) (v : String) : Ring :=
  if d.any (fun q => decide (q.1 = k)) then
    d.map (fun q => if q.1 = k then (k, v) else q)
  else
    d ++ [(k, v)]

/-- Dictionary lookup returning `none` on a missing key (a dict holds at most
one entry per key, so the first match is the entry). -/
def dictGet : Ring → Nat → Option String
  | [], _ => none
  | q :: d, k => if q.1 = k then some q.2 else dictGet d k

/-- Python `d[k]`: raises `KeyError` when the key is absent. -/
def pyIndex (d : Ring) (k : Nat) : Except String String :=
  match dictGet d k with
  | some v => Except.ok v
  | none => Except.error "KeyError"

/-- `d.keys()` in insertion order. -/
def ringKeys (d : Ring) : List Nat := d.map Prod.fst

/-- Python `range(n)` for an `int` argument: empty when `n ≤ 0`. -/
def pyRange (n : Int) : List Nat := List.range n.toNat

/-- Python `min(...)` over a non-empty iterable of ints (a running fold of
the binary minimum); `none` models the `ValueError` on an empty iterable. -/
def listMin : List Nat → Option Nat
  | [] => none
  | x :: xs => some (xs.foldl Nat.min x)

/-- `ConsistentHashing._build_ring` (lines 66–73): for each node, for each
`i` in `range(virtual_nodes)`, insert `hash(f"{node}#{i}") → node` into the
ring dict, starting from the empty dict of `__init__`. -/
def build_ring (hash : String → Nat) (nodes : List String)
    (virtual_nodes : Int) : Ring :=
  nodes.foldl
    (fun ring node =>
      (pyRange virtual_nodes).foldl
        (fun ring i => dictInsert ring (hash (node ++ "#" ++ toString i)) node)
        ring)
    []

/-- `ConsistentHashing.get_node` (lines 75–86): raise
`ValueError("No nodes in the ring")` on an empty ring; otherwise scan the
sorted keys for the first one `≥ hash(key)` and return its node, falling back
to the node of the minimum key. -/
def get_node (hash : String → Nat) (ring : Ring) (key : String) :
    Except String String :=
  if ring.isEmpty then
    Except.error "No nodes in the ring"
  else
    let key_hash := hash key
    match (List.insertionSort (· ≤ ·) (ringKeys ring)).find?
        (fun node_hash => decide (key_hash ≤ node_hash)) with
    | some node_hash => pyIndex ring node_hash
    | none =>
      match listMin (ringKeys ring) with
      | some m => pyIndex ring m
      | none => Except.error "min() arg is an empty sequence"

/-- The configured shard list (line 89). -/
def SHARDS : List String := ["shard_1", "shard_2", "shard_3"]

/-- `get_session` (lines 93–98), to the extent visible in the source: check
that the shard is a configured key of `SESSION_MAKERS` (raising
`ValueError(f"Unknown shard: {shard}")` otherwise) and hand out a session.
The session object itself is opaque, so the result is just success/failure. -/
def get_session (session_makers : List String) (shard : String) :
    Except String Unit :=
  if shard ∈ session_makers then Except.ok ()
  else Except.error ("Unknown shard: " ++ shard)

/-! ### Basic facts about the dictionary model -/

theorem any_eq_true_iff_mem (d : Ring) (k : Nat) :
    d.any (fun q => decide (q.1 = k)) = true ↔ k ∈ ringKeys d := by
  simp [List.any_eq_true, ringKeys, List.mem_map]

theorem mapReplace_get_self (k : Nat) (v : String) (d : Ring)
    (h : k ∈ ringKeys d) :
    dictGet (d.map (fun q => if q.1 = k then (k, v) else q)) k = some v := by
  induction d with
  | nil => simp [ringKeys] at h
  | cons q d ih =>
    by_cases hq : q.1 = k
    · simp [dictGet, hq]
    · rw [List.map_cons, if_neg hq]
      rw [show dictGet (q :: List.map (fun q => if q.1 = k then (k, v) else q) d) k
          = if q.1 = k then some q.2
            else dictGet (List.map (fun q => if q.1 = k then (k, v) else q) d) k from rfl]
      rw [if_neg hq]
      apply ih
      simp only [ringKeys, List.map_cons, List.mem_cons] at h
      rcases h with h | h
      · exact absurd h.symm hq
      · exact h

theorem mapReplace_get_ne (k : Nat) (v : String) (d : Ring) (p : Nat)
    (h : p ≠ k) :
    dictGet (d.map (fun q => if q.1 = k then (k, v) else q)) p = dictGet d p := by
  induction d with
  | nil => rfl
  | cons q d ih =>
    by_cases hq : q.1 = k
    · rw [List.map_cons, if_pos hq]
      show (if k = p then some v else _) = if q.1 = p then some q.2 else dictGet d p
      rw [if_neg (fun hh => h hh.symm), if_neg (fun hh => h (hq ▸ hh).symm)]
      exact ih
    · rw [List.map_cons, if_neg hq]
      show (if q.1 = p then some q.2 else _) = if q.1 = p then some q.2 else dictGet d p
      by_cases hp : q.1 = p
      · rw [if_pos hp, if_pos hp]
      · rw [if_neg hp, if_neg hp]; exact ih

theorem dictGet_eq_none_of_not_mem (d : Ring) (k : Nat)
    (h : k ∉ ringKeys d) : dictGet d k = none := by
  induction d with
  | nil => rfl
  | cons q d ih =>
    simp only [ringKeys, List.map_cons, List.mem_cons, not_or] at h
    show (if q.1 = k then some q.2 else dictGet d k) = none
    rw [if_neg (fun hh => h.1 hh.symm)]
    exact ih h.2

theorem dictGet_append (d₁ d₂ : Ring) (p : Nat) :
    dictGet (d₁ ++ d₂) p = (dictGet d₁ p).or (dictGet d₂ p) := by
  induction d₁ with
  | nil => simp [dictGet]
  | cons q d ih =>
    show (if q.1 = p then some q.2 else dictGet (d ++ d₂) p)
      = ((if q.1 = p then some q.2 else dictGet d p).or (dictGet d₂ p))
    by_cases hp : q.1 = p
    · rw [if_pos hp, if_pos hp]; rfl
    · rw [if_neg hp, if_neg hp]; exact ih

/-- The single fact that determines the dictionary after an insertion. -/
theorem dictGet_dictInsert (d : Ring) (k : Nat) (v : String) (p : Nat) :
    dictGet (dictInsert d k v) p = if p = k then some v else dictGet d p := by
  unfold dictInsert
  by_cases hmem : k ∈ ringKeys d
  · rw [if_pos ((any_eq_true_iff_mem d k).mpr hmem)]
    by_cases hp : p = k
    · subst hp; rw [if_pos rfl]; exact mapReplace_get_self p v d hmem
    · rw [if_neg hp]; exact mapReplace_get_ne k v d p hp
  · rw [if_neg (fun hh => hmem ((any_eq_true_iff_mem d k).mp hh))]
    rw [dictGet_append]
    by_cases hp : p = k
    · subst hp
      rw [if_pos rfl, dictGet_eq_none_of_not_mem d p hmem]
      simp [dictGet]
    · rw [if_neg hp]
      have : dictGet [(k, v)] p = none := by
        show (if k = p then some v else none) = none
        rw [if_neg (fun hh => hp hh.symm)]
      rw [this, Option.or_none]

theorem ringKeys_dictInsert_of_mem (d : Ring) (k : Nat) (v : String)
    (h : k ∈ ringKeys d) : ringKeys (dictInsert d k v) = ringKeys d := by
  unfold dictInsert
  rw [if_pos ((any_eq_true_iff_mem d k).mpr h)]
  simp only [ringKeys, List.map_map]
  apply List.map_congr_left
  intro q _
  by_cases hq : q.1 = k <;> simp [hq]

theorem ringKeys_dictInsert_of_not_mem (d : Ring) (k : Nat) (v : String)
    (h : k ∉ ringKeys d) : ringKeys (dictInsert d k v) = ringKeys d ++ [k] := by
  unfold dictInsert
  rw [if_neg (fun hh => h ((any_eq_true_iff_mem d k).mp hh))]
  simp [ringKeys]

theorem mem_ringKeys_dictInsert (d : Ring) (k : Nat) (v : String) (p : Nat) :
    p ∈ ringKeys (dictInsert d k v) ↔ p = k ∨ p ∈ ringKeys d := by
  by_cases h : k ∈ ringKeys d
  · rw [ringKeys_dictInsert_of_mem d k v h]
    constructor
    · exact Or.inr
    · rintro (rfl | hp)
      · exact h
      · exact hp
  · rw [ringKeys_dictInsert_of_not_mem d k v h]
    simp [or_comm]

theorem nodup_ringKeys_dictInsert (d : Ring) (k : Nat) (v : String)
    (h : (ringKeys d).Nodup) : (ringKeys (dictInsert d k v)).Nodup := by
  by_cases hk : k ∈ ringKeys d
  · rw [ringKeys_dictInsert_of_mem d k v hk]; exact h
  · rw [ringKeys_dictInsert_of_not_mem d k v hk]
    simpa [List.nodup_append] using ⟨h, hk⟩

theorem dictInsert_ne_nil (d : Ring) (k : Nat) (v : String) :
    dictInsert d k v ≠ [] := by
  unfold dictInsert
  by_cases hmem : d.any (fun q => decide (q.1 = k)) = true
  · rw [if_pos hmem]
    cases d with
    | nil => simp at hmem
    | cons q d => simp
  · rw [if_neg hmem]
    simp

theorem length_dictInsert (d : Ring) (k : Nat) (v : String) :
    (dictInsert d k v).length =
      if k ∈ ringKeys d then d.length else d.length + 1 := by
  unfold dictInsert
  by_cases hk : k ∈ ringKeys d
  · rw [if_pos ((any_eq_true_iff_mem d k).mpr hk), if_pos hk, List.length_map]
  · rw [if_neg (fun hh => hk ((any_eq_true_iff_mem d k).mp hh)), if_neg hk]
    simp

theorem dictGet_isSome_of_mem (d : Ring) (p : Nat) (h : p ∈ ringKeys d) :
    ∃ s, dictGet d p = some s := by
  induction d with
  | nil => simp [ringKeys] at h
  | cons q d ih =>
    by_cases hp : q.1 = p
    · exact ⟨q.2, by simp [dictGet, hp]⟩
    · simp only [ringKeys, List.map_cons, List.mem_cons] at h
      rcases h with h | h
      · exact absurd h.symm hp
      · rcases ih h with ⟨s, hs⟩
        exact ⟨s, by simp only [dictGet, if_neg hp]; exact hs⟩

theorem dictGet_mem (d : Ring) (p : Nat) (s : String)
    (h : dictGet d p = some s) : (p, s) ∈ d := by
  induction d with
  | nil => simp [dictGet] at h
  | cons q d ih =>
    by_cases hp : q.1 = p
    · simp only [dictGet, if_pos hp, Option.some.injEq] at h
      have hq : q = (p, s) := by
        cases q with
        | mk a b =>
          simp only at hp h
          rw [hp, h]
      rw [hq]
      exact List.mem_cons_self _ _
    · simp only [dictGet, if_neg hp] at h
      exact List.mem_cons_of_mem q (ih h)

theorem values_dictInsert (d : Ring) (k : Nat) (v : String) (q : Nat × String)
    (h : q ∈ dictInsert d k v) : q.2 = v ∨ q ∈ d := by
  unfold dictInsert at h
  by_cases hmem : d.any (fun r => decide (r.1 = k)) = true
  · rw [if_pos hmem] at h
    rcases List.mem_map.mp h with ⟨r, hr, hq⟩
    by_cases hrk : r.1 = k
    · left; rw [← hq]; simp [hrk]
    · right; rw [← hq]; simpa [hrk] using hr
  · rw [if_neg hmem] at h
    rcases List.mem_append.mp h with h | h
    · exact Or.inr h
    · left; simp at h; simp [h]

/-! ### Facts about `listMin` (Python `min`) -/

theorem foldl_min_mem (xs : List Nat) : ∀ x : Nat,
    xs.foldl Nat.min x ∈ x :: xs := by
  induction xs with
  | nil => intro x; exact List.mem_singleton.mpr rfl
  | cons y ys ih =>
    intro x
    rcases List.mem_cons.mp (ih (Nat.min x y)) with h | h
    · rcases min_choice x y with hm | hm
      · exact List.mem_cons.mpr (Or.inl (h.trans hm))
      · exact List.mem_cons.mpr
          (Or.inr (List.mem_cons.mpr (Or.inl (h.trans hm))))
    · exact List.mem_cons.mpr (Or.inr (List.mem_cons.mpr (Or.inr h)))

theorem foldl_min_le (xs : List Nat) : ∀ x : Nat,
    ∀ y ∈ x :: xs, xs.foldl Nat.min x ≤ y := by
  induction xs with
  | nil =>
    intro x y hy
    have hx := List.mem_singleton.mp hy
    subst hx
    exact Nat.le_refl _
  | cons z zs ih =>
    intro x y hy
    rcases List.mem_cons.mp hy with rfl | hy
    · exact (ih (Nat.min _ z) _ (List.mem_cons_self _ _)).trans
        (Nat.min_le_left _ _)
    · rcases List.mem_cons.mp hy with rfl | hy
      · exact (ih (Nat.min x _) _ (List.mem_cons_self _ _)).trans
          (Nat.min_le_right _ _)
      · exact ih (Nat.min x z) y (List.mem_cons_of_mem _ hy)

theorem listMin_isSome (l : List Nat) (h : l ≠ []) : ∃ m, listMin l = some m := by
  cases l with
  | nil => exact absurd rfl h
  | cons x xs => exact ⟨xs.foldl Nat.min x, rfl⟩

theorem listMin_mem (l : List Nat) (m : Nat) (h : listMin l = some m) : m ∈ l := by
  cases l with
  | nil => simp [listMin] at h
  | cons x xs =>
    simp only [listMin, Option.some.injEq] at h
    exact h ▸ foldl_min_mem xs x

theorem listMin_le (l : List Nat) (m : Nat) (h : listMin l = some m) :
    ∀ y ∈ l, m ≤ y := by
  cases l with
  | nil => simp [listMin] at h
  | cons x xs =>
    simp only [listMin, Option.some.injEq] at h
    exact h ▸ foldl_min_le xs x

theorem listMin_eq_some (l : List Nat) (m : Nat) (hm : m ∈ l)
    (hle : ∀ y ∈ l, m ≤ y) : listMin l = some m := by
  cases l with
  | nil => simp at hm
  | cons x xs =>
    have h1 : xs.foldl Nat.min x ∈ x :: xs := foldl_min_mem xs x
    have h2 := foldl_min_le xs x
    exact congrArg some (Nat.le_antisymm (h2 m hm) (hle _ h1))

/-! ### Successor search over the sorted key list -/

/-- Spec side (§4.1, successor search): the smallest stored position `≥ h`,
or `none` when `h` exceeds every stored position. -/
def leastGE (h : Nat) (positions : List Nat) : Option Nat :=
  listMin (positions.filter (fun p => decide (h ≤ p)))

theorem find?_sorted_least (p : Nat → Bool) (l : List Nat)
    (hs : List.Sorted (· ≤ ·) l) (a : Nat) (h : l.find? p = some a) :
    a ∈ l ∧ p a = true ∧ ∀ y ∈ l, p y = true → a ≤ y := by
  induction l with
  | nil => simp at h
  | cons x xs ih =>
    rw [List.sorted_cons] at hs
    by_cases hpx : p x = true
    · rw [List.find?_cons_of_pos xs hpx, Option.some.injEq] at h
      subst h
      refine ⟨List.mem_cons_self _ _, hpx, ?_⟩
      intro y hy _
      rcases List.mem_cons.mp hy with rfl | hy
      · exact Nat.le_refl _
      · exact hs.1 y hy
    · rw [List.find?_cons_of_neg xs hpx] at h
      rcases ih hs.2 h with ⟨hmem, hpa, hleast⟩
      refine ⟨List.mem_cons_of_mem x hmem, hpa, ?_⟩
      intro y hy hpy
      rcases List.mem_cons.mp hy with rfl | hy
      · exact absurd hpy hpx
      · exact hleast y hy hpy

/-- The scan over `sorted(self.ring.keys())` in `get_node` is exactly the
spec's successor search. -/
theorem find?_insertionSort_eq_leastGE (h : Nat) (ks : List Nat) :
    (List.insertionSort (· ≤ ·) ks).find? (fun nh => decide (h ≤ nh))
      = leastGE h ks := by
  have hperm := List.perm_insertionSort (· ≤ ·) ks
  have hsort := List.sorted_insertionSort (· ≤ ·) ks
  cases hf : (List.insertionSort (· ≤ ·) ks).find? (fun nh => decide (h ≤ nh)) with
  | some a =>
    rcases find?_sorted_least _ _ hsort a hf with ⟨hmem, hpa, hleast⟩
    symm
    apply listMin_eq_some
    · rw [List.mem_filter]
      exact ⟨hperm.mem_iff.mp hmem, hpa⟩
    · intro y hy
      rw [List.mem_filter] at hy
      exact hleast y (hperm.mem_iff.mpr hy.1) hy.2
  | none =>
    rw [List.find?_eq_none] at hf
    symm
    rw [leastGE, show ks.filter (fun p => decide (h ≤ p)) = [] from ?_]
    · rfl
    · rw [List.filter_eq_nil_iff]
      intro y hy
      exact hf y (hperm.mem_iff.mpr hy)

/-! ### The ring as a sequence of insertions -/

/-- The sequence of `(position, shard)` insertions performed by
`_build_ring`, in execution order (outer loop over `nodes`, inner loop over
`range(virtual_nodes)`). -/
def ringPairs (hash : String → Nat) (nodes : List String)
    (virtual_nodes : Int) : List (Nat × String) :=
  nodes.flatMap (fun node =>
    (pyRange virtual_nodes).map
      (fun i => (hash (node ++ "#" ++ toString i), node)))

/-- Spec side (§4.1, §9): the value stored at a position under
last-write-wins resolution of the insertion sequence. -/
def lastWriteWins (l : List (Nat × String)) (p : Nat) : Option String :=
  ((l.filter (fun q => decide (q.1 = p))).getLast?).map (fun q => q.2)

/-- Replaying a list of insertions into a dict. -/
def insertList (d : Ring) (l : List (Nat × String)) : Ring :=
  l.foldl (fun d q => dictInsert d q.1 q.2) d

theorem insertList_cons (d : Ring) (q : Nat × String) (l : List (Nat × String)) :
    insertList d (q :: l) = insertList (dictInsert d q.1 q.2) l := rfl

theorem insertList_append (d : Ring) (l₁ l₂ : List (Nat × String)) :
    insertList d (l₁ ++ l₂) = insertList (insertList d l₁) l₂ :=
  List.foldl_append _ _ _ _

/-- `_build_ring` replays exactly the insertion sequence `ringPairs` into the
initially empty dict. -/
theorem build_ring_eq_insertList (hash : String → Nat) (nodes : List String)
    (v : Int) :
    build_ring hash nodes v = insertList [] (ringPairs hash nodes v) := by
  suffices h : ∀ (ns : List String) (d : Ring),
      ns.foldl (fun ring node =>
        (pyRange v).foldl
          (fun ring i => dictInsert ring (hash (node ++ "#" ++ toString i)) node)
          ring) d
        = insertList d (ringPairs hash ns v) by
    exact h nodes []
  intro ns
  induction ns with
  | nil => intro d; rfl
  | cons n ns ih =>
    intro d
    rw [List.foldl_cons, ih]
    have hsplit : ringPairs hash (n :: ns) v
        = ((pyRange v).map (fun i => (hash (n ++ "#" ++ toString i), n)))
          ++ ringPairs hash ns v := by
      rw [ringPairs, ringPairs, List.flatMap_cons]
    rw [hsplit, insertList_append]
    congr 1
    rw [insertList, List.foldl_map]

theorem dictGet_insertList (l : List (Nat × String)) (d : Ring) (p : Nat) :
    dictGet (insertList d l) p = (lastWriteWins l p).or (dictGet d p) := by
  induction l generalizing d with
  | nil => rfl
  | cons q l ih =>
    rw [insertList_cons, ih, dictGet_dictInsert]
    cases hF : l.filter (fun r => decide (r.1 = p)) with
    | nil =>
      have hlww : lastWriteWins l p = none := by
        rw [lastWriteWins, hF]; rfl
      rw [hlww, Option.none_or]
      by_cases hq : q.1 = p
      · have : lastWriteWins (q :: l) p = some q.2 := by
          rw [lastWriteWins, List.filter_cons, if_pos (by simpa using hq), hF]
          rfl
        rw [this, if_pos hq.symm]
        rfl
      · have : lastWriteWins (q :: l) p = none := by
          rw [lastWriteWins, List.filter_cons, if_neg (by simpa using hq), hF]
          rfl
        rw [this, if_neg (fun hh => hq hh.symm), Option.none_or]
    | cons r F =>
      have hlww : lastWriteWins l p = some ((r :: F).getLast (by simp)).2 := by
        rw [lastWriteWins, hF, List.getLast?_eq_getLast _ (by simp)]
        rfl
      have hcons : lastWriteWins (q :: l) p = lastWriteWins l p := by
        rw [lastWriteWins, lastWriteWins, List.filter_cons]
        by_cases hq : q.1 = p
        · rw [if_pos (by simpa using hq), hF, List.getLast?_cons_cons]
        · rw [if_neg (by simpa using hq)]
      rw [hcons, hlww]
      rfl

theorem values_insertList (l : List (Nat × String)) (d : Ring)
    (q : Nat × String) (h : q ∈ insertList d l) :
    q ∈ d ∨ q.2 ∈ l.map Prod.snd := by
  induction l generalizing d with
  | nil => exact Or.inl h
  | cons r l ih =>
    rw [insertList_cons] at h
    rcases ih _ h with hmem | hval
    · rcases values_dictInsert d r.1 r.2 q hmem with hv | hd
      · right; rw [List.map_cons, hv]; exact List.mem_cons_self _ _
      · exact Or.inl hd
    · right; exact List.mem_cons_of_mem _ hval

/-! ### Cardinality and membership of the built ring -/

theorem toFinset_ringKeys_dictInsert (d : Ring) (k : Nat) (v : String) :
    (ringKeys (dictInsert d k v)).toFinset = insert k (ringKeys d).toFinset := by
  apply Finset.ext
  intro x
  simp [List.mem_toFinset, mem_ringKeys_dictInsert]

theorem length_insertList (l : List (Nat × String)) : ∀ d : Ring,
    (ringKeys d).Nodup →
    (insertList d l).length
      = ((ringKeys d).toFinset ∪ (l.map Prod.fst).toFinset).card := by
  induction l with
  | nil =>
    intro d h
    simp only [insertList, List.foldl_nil, List.map_nil, List.toFinset_nil,
      Finset.union_empty]
    rw [List.toFinset_card_of_nodup h, ringKeys, List.length_map]
  | cons q l ih =>
    intro d h
    rw [insertList_cons, ih _ (nodup_ringKeys_dictInsert d q.1 q.2 h),
      toFinset_ringKeys_dictInsert, List.map_cons, List.toFinset_cons,
      Finset.insert_union, Finset.union_insert]

theorem nodup_ringKeys_insertList (l : List (Nat × String)) : ∀ d : Ring,
    (ringKeys d).Nodup → (ringKeys (insertList d l)).Nodup := by
  induction l with
  | nil => intro d h; exact h
  | cons q l ih =>
    intro d h
    rw [insertList_cons]
    exact ih _ (nodup_ringKeys_dictInsert d q.1 q.2 h)

/-- The keys of the built ring are distinct. -/
theorem nodup_ringKeys_build_ring (hash : String → Nat) (nodes : List String)
    (v : Int) : (ringKeys (build_ring hash nodes v)).Nodup := by
  rw [build_ring_eq_insertList]
  exact nodup_ringKeys_insertList _ [] List.nodup_nil

/-- The built ring holds one entry per distinct inserted position. -/
theorem length_build_ring (hash : String → Nat) (nodes : List String)
    (v : Int) :
    (build_ring hash nodes v).length
      = ((ringPairs hash nodes v).map Prod.fst).dedup.length := by
  rw [build_ring_eq_insertList,
    length_insertList _ [] List.nodup_nil]
  simp only [ringKeys, List.map_nil, List.toFinset_nil, Finset.empty_union]
  exact List.card_toFinset _

theorem sum_map_const_nat {α : Type} (xs : List α) (c : Nat) :
    (xs.map (fun _ => c)).sum = xs.length * c := by
  induction xs with
  | nil => simp
  | cons x xs ih => simp [ih, Nat.succ_mul, Nat.add_comm]

theorem length_ringPairs (hash : String → Nat) (nodes : List String)
    (v : Int) :
    (ringPairs hash nodes v).length = nodes.length * v.toNat := by
  rw [ringPairs, List.length_flatMap]
  have h : (List.map (List.length ∘ fun node =>
      (pyRange v).map (fun i => (hash (node ++ "#" ++ toString i), node)))
        nodes)
      = nodes.map (fun _ => v.toNat) := by
    apply List.map_congr_left
    intro n _
    simp [pyRange]
  rw [h, sum_map_const_nat]

theorem snd_mem_nodes_of_mem_ringPairs (hash : String → Nat)
    (nodes : List String) (v : Int) (q : Nat × String)
    (h : q ∈ ringPairs hash nodes v) : q.2 ∈ nodes := by
  rw [ringPairs, List.mem_flatMap] at h
  rcases h with ⟨n, hn, hq⟩
  rcases List.mem_map.mp hq with ⟨i, _, hqi⟩
  rw [← hqi]
  exact hn

/-- Every value stored in the built ring is one of the configured nodes. -/
theorem dictGet_build_ring_mem_nodes (hash : String → Nat)
    (nodes : List String) (v : Int) (p : Nat) (s : String)
    (h : dictGet (build_ring hash nodes v) p = some s) : s ∈ nodes := by
  have hmem := dictGet_mem _ _ _ h
  rw [build_ring_eq_insertList] at hmem
  rcases values_insertList _ [] _ hmem with hnil | hval
  · simp at hnil
  · rcases List.mem_map.mp hval with ⟨q, hq, hqs⟩
    have := snd_mem_nodes_of_mem_ringPairs hash nodes v q hq
    rw [hqs] at this
    exact this

/-! ### Non-emptiness of the built ring -/

theorem insertList_ne_nil (l : List (Nat × String)) : ∀ d : Ring,
    d ≠ [] ∨ l ≠ [] → insertList d l ≠ [] := by
  induction l with
  | nil =>
    intro d h
    rcases h with h | h
    · exact h
    · exact absurd rfl h
  | cons q l ih =>
    intro d _
    rw [insertList_cons]
    exact ih _ (Or.inl (dictInsert_ne_nil d q.1 q.2))

theorem ringPairs_ne_nil (hash : String → Nat) (nodes : List String) (v : Int)
    (hn : nodes ≠ []) (hv : 1 ≤ v) : ringPairs hash nodes v ≠ [] := by
  intro h
  have hlen := length_ringPairs hash nodes v
  rw [h] at hlen
  simp only [List.length_nil] at hlen
  have h1 : 0 < nodes.length := List.length_pos.mpr hn
  have h2 : 0 < v.toNat := by omega
  have := Nat.mul_pos h1 h2
  omega

/-- With at least one node and `virtual_nodes ≥ 1`, the built ring is
non-empty. -/
theorem build_ring_ne_nil (hash : String → Nat) (nodes : List String) (v : Int)
    (hn : nodes ≠ []) (hv : 1 ≤ v) : build_ring hash nodes v ≠ [] := by
  rw [build_ring_eq_insertList]
  exact insertList_ne_nil _ [] (Or.inr (ringPairs_ne_nil hash nodes v hn hv))

/-! ### `get_node` on a non-empty ring -/

theorem pyIndex_eq_ok (d : Ring) (p : Nat) (s : String)
    (h : dictGet d p = some s) : pyIndex d p = Except.ok s := by
  rw [pyIndex, h]

theorem ringKeys_ne_nil (d : Ring) (h : d ≠ []) : ringKeys d ≠ [] := by
  cases d with
  | nil => exact absurd rfl h
  | cons q d => simp [ringKeys]

/-- `get_node` on a non-empty ring, rewritten through the spec's successor
search: the scanned branch is `leastGE`, the fallback is the minimum key. -/
theorem get_node_eq_of_ne_nil (hash : String → Nat) (ring : Ring)
    (key : String) (hne : ring ≠ []) :
    get_node hash ring key =
      match leastGE (hash key) (ringKeys ring) with
      | some p => pyIndex ring p
      | none =>
        match listMin (ringKeys ring) with
        | some m => pyIndex ring m
        | none => Except.error "min() arg is an empty sequence" := by
  rw [get_node, if_neg (by simpa [List.isEmpty_iff] using hne)]
  simp only [find?_insertionSort_eq_leastGE]

/-- On a non-empty ring `get_node` always succeeds, returning a value stored
in the ring (in particular the `KeyError` and `min()` branches are
unreachable). -/
theorem get_node_ok (hash : String → Nat) (ring : Ring) (key : String)
    (hne : ring ≠ []) :
    ∃ p s, get_node hash ring key = Except.ok s ∧ dictGet ring p = some s := by
  rw [get_node_eq_of_ne_nil hash ring key hne]
  cases hls : leastGE (hash key) (ringKeys ring) with
  | some p =>
    have hp : p ∈ ringKeys ring := by
      have := listMin_mem _ _ hls
      exact (List.mem_filter.mp this).1
    rcases dictGet_isSome_of_mem ring p hp with ⟨s, hs⟩
    exact ⟨p, s, pyIndex_eq_ok ring p s hs, hs⟩
  | none =>
    rcases listMin_isSome (ringKeys ring) (ringKeys_ne_nil ring hne) with ⟨m, hm⟩
    have hmk : m ∈ ringKeys ring := listMin_mem _ _ hm
    rcases dictGet_isSome_of_mem ring m hmk with ⟨s, hs⟩
    refine ⟨m, s, ?_, hs⟩
    rw [hm]
    exact pyIndex_eq_ok ring m s hs

/-! ### Construction with a non-positive virtual-node count -/

/-- `range(virtual_nodes)` is empty for `virtual_nodes ≤ 0`, so `__init__`
silently builds an empty ring: there is no validation of the argument. -/
theorem build_ring_eq_nil_of_nonpos (hash : String → Nat)
    (nodes : List String) (v : Int) (hv : v ≤ 0) :
    build_ring hash nodes v = [] := by
  have hz : v.toNat = 0 := by omega
  have hpy : pyRange v = [] := by simp [pyRange, hz]
  rw [build_ring]
  simp only [hpy, List.foldl_nil]
  induction nodes with
  | nil => rfl
  | cons n ns ih => exact ih

theorem get_node_nil (hash : String → Nat) (key : String) :
    get_node hash [] key = Except.error "No nodes in the ring" := rfl

/-! ### The FastAPI endpoints (`create_user`, `get_user`)

The endpoints drive external resources (a SQLAlchemy session against a
PostgreSQL shard), so the outcome of each fallible session call is an input
of the embedding: `some msg` means the call raises an exception `e` with
`str(e) = msg`.  The endpoint bodies themselves — shard resolution, session
acquisition, the `try`/`except`/`finally` discipline and the returned value
or raised exception — are embedded faithfully, and the session-level side
effects of a run are recorded in an event trace. -/

/-- The `UserCreate` request schema (lines 40–44); `user_id` is a Python
`int`. -/
structure UserCreate where
  user_id : Int
  name : String
  region : String
  email : String
  deriving DecidableEq

/-- A raised Python exception, as the caller sees it. -/
inductive PyExn where
  /-- `raise ValueError(msg)` -/
  | valueError (msg : String)
  /-- `raise HTTPException(status_code, detail)` -/
  | httpException (status : Nat) (detail : String)
  /-- an uncaught exception from the database layer, with its `str(e)` -/
  | dbError (msg : String)
  deriving DecidableEq

/-- One session-level side effect. -/
inductive Event where
  | sessionOpen (shard : String)
  | sessionAdd
  | sessionCommit
  | sessionRefresh
  | sessionRollback
  | sessionQuery
  | sessionClose
  deriving DecidableEq

/-- Outcomes of the fallible calls inside `create_user`'s `try` block
(`session.add`, `session.commit`, `session.refresh`). -/
structure CreateOutcomes where
  addError : Option String
  commitError : Option String
  refreshError : Option String
  deriving DecidableEq

/-- `create_user` (lines 101–120): resolve the shard from
`str(user.user_id)`, open a session, then `try` add/commit/refresh and
return the row; `except` wraps any exception into
`HTTPException(500, str(e))` after `session.rollback()`; `finally` runs
`session.close()` on every path. -/
def create_user (hash : String → Nat) (ring : Ring)
    (session_makers : List String) (user : UserCreate) (oc : CreateOutcomes) :
    Except PyExn UserCreate × List Event :=
  match get_node hash ring (toString user.user_id) with
  | Except.error msg => (Except.error (PyExn.valueError msg), [])
  | Except.ok shard =>
    match get_session session_makers shard with
    | Except.error msg => (Except.error (PyExn.valueError msg), [])
    | Except.ok _ =>
      match oc.addError with
      | some e =>
        (Except.error (PyExn.httpException 500 e),
          [Event.sessionOpen shard, Event.sessionAdd,
            Event.sessionRollback, Event.sessionClose])
      | none =>
        match oc.commitError with
        | some e =>
          (Except.error (PyExn.httpException 500 e),
            [Event.sessionOpen shard, Event.sessionAdd, Event.sessionCommit,
              Event.sessionRollback, Event.sessionClose])
        | none =>
          match oc.refreshError with
          | some e =>
            (Except.error (PyExn.httpException 500 e),
              [Event.sessionOpen shard, Event.sessionAdd, Event.sessionCommit,
                Event.sessionRefresh, Event.sessionRollback,
                Event.sessionClose])
          | none =>
            (Except.ok user,
              [Event.sessionOpen shard, Event.sessionAdd, Event.sessionCommit,
                Event.sessionRefresh, Event.sessionClose])

/-- Outcome of the single fallible call inside `get_user`'s `try` block:
the `select ... where user_id = ...` with `.first()`, which either raises
(`queryError`), returns no row (`queryResult = none`) or returns the row. -/
structure GetOutcomes where
  queryError : Option String
  queryResult : Option UserCreate
  deriving DecidableEq

/-- `get_user` (lines 122–136): resolve the shard from `str(user_id)`, open
a session, `try` the query — raising `HTTPException(404, "User not found")`
when no row comes back, returning the row otherwise — with
`session.close()` in `finally` on every path (there is no `except`, so a
query exception propagates unchanged). -/
def get_user (hash : String → Nat) (ring : Ring)
    (session_makers : List String) (user_id : Int) (oc : GetOutcomes) :
    Except PyExn UserCreate × List Event :=
  match get_node hash ring (toString user_id) with
  | Except.error msg => (Except.error (PyExn.valueError msg), [])
  | Except.ok shard =>
    match get_session session_makers shard with
    | Except.error msg => (Except.error (PyExn.valueError msg), [])
    | Except.ok _ =>
      match oc.queryError with
      | some e =>
        (Except.error (PyExn.dbError e),
          [Event.sessionOpen shard, Event.sessionQuery, Event.sessionClose])
      | none =>
        match oc.queryResult with
        | none =>
          (Except.error (PyExn.httpException 404 "User not found"),
            [Event.sessionOpen shard, Event.sessionQuery, Event.sessionClose])
        | some u =>
          (Except.ok u,
            [Event.sessionOpen shard, Event.sessionQuery, Event.sessionClose])

/-- The shard whose session an invocation opened, read off its trace. -/
def openedShard (trace : List Event) : Option String :=
  trace.findSome? (fun ev =>
    match ev with
    | Event.sessionOpen s => some s
    | _ => none)

/-! ### Claim theorems for the ring -/

/-- A concrete stand-in digest used to instantiate the (digest-generic)
theorems on computable inputs. -/
def lengthHash (s : String) : Nat := s.length

/-- C1: on a non-empty ring, `get_node` returns the shard stored at the
smallest ring position `≥ hash(key)`; when no stored position is
`≥ hash(key)` it wraps around to the shard stored at the minimum stored
position. -/
theorem getNode_successor_wraparound (hash : String → Nat) (ring : Ring)
    (key : String) (hne : ring ≠ []) :
    (∀ p, leastGE (hash key) (ringKeys ring) = some p →
      ∃ s, dictGet ring p = some s ∧ get_node hash ring key = Except.ok s)
    ∧ (leastGE (hash key) (ringKeys ring) = none →
      ∃ m s, listMin (ringKeys ring) = some m ∧ dictGet ring m = some s
        ∧ get_node hash ring key = Except.ok s) := by
  constructor
  · intro p hp
    have hmem : p ∈ ringKeys ring := (List.mem_filter.mp (listMin_mem _ _ hp)).1
    rcases dictGet_isSome_of_mem ring p hmem with ⟨s, hs⟩
    refine ⟨s, hs, ?_⟩
    rw [get_node_eq_of_ne_nil hash ring key hne, hp]
    exact pyIndex_eq_ok ring p s hs
  · intro hp
    rcases listMin_isSome (ringKeys ring) (ringKeys_ne_nil ring hne) with ⟨m, hm⟩
    have hmem := listMin_mem _ _ hm
    rcases dictGet_isSome_of_mem ring m hmem with ⟨s, hs⟩
    refine ⟨m, s, hm, hs, ?_⟩
    rw [get_node_eq_of_ne_nil hash ring key hne, hp, hm]
    exact pyIndex_eq_ok ring m s hs

theorem getNode_successor_wraparound_witness :
    ∃ s, dictGet [(3, "a"), (4, "bb")] 4 = some s
      ∧ get_node lengthHash [(3, "a"), (4, "bb")] "hash" = Except.ok s :=
  (getNode_successor_wraparound lengthHash [(3, "a"), (4, "bb")] "hash"
    (by decide)).1 4 (by decide)

/-- C2: for a ring built from a non-empty shard list with
`virtual_nodes ≥ 1`, `get_node` never fails — the empty-ring branch is
unreachable — and its result is one of the configured shards. -/
theorem getNode_total_configured (hash : String → Nat) (nodes : List String)
    (v : Int) (key : String) (hn : nodes ≠ []) (hv : 1 ≤ v) :
    ∃ s, get_node hash (build_ring hash nodes v) key = Except.ok s
      ∧ s ∈ nodes := by
  have hne := build_ring_ne_nil hash nodes v hn hv
  rcases get_node_ok hash (build_ring hash nodes v) key hne with ⟨p, s, hok, hget⟩
  exact ⟨s, hok, dictGet_build_ring_mem_nodes hash nodes v p s hget⟩

theorem getNode_total_configured_witness :
    ∃ s, get_node lengthHash (build_ring lengthHash ["a", "bb"] 2) "xy"
        = Except.ok s
      ∧ s ∈ ["a", "bb"] :=
  getNode_total_configured lengthHash ["a", "bb"] 2 "xy" (by decide) (by decide)

/-- Spec side (§4.1): the number of hash-position collisions among the
`N·V` virtual nodes, i.e. how many inserted positions duplicate an
earlier-inserted one. -/
def numCollisions (hash : String → Nat) (nodes : List String) (v : Int) :
    Nat :=
  ((ringPairs hash nodes v).map Prod.fst).length
    - ((ringPairs hash nodes v).map Prod.fst).dedup.length

/-- C3: ring construction replays exactly the insertion sequence
`hash(f"{node}#{i}") → node` (nodes in the given order, `i` in
`[0, virtual_nodes)`) with last-write-wins overwrite on position
collisions, and the built ring holds exactly `N·V` entries minus the
number of collisions. -/
theorem build_ring_last_write_wins (hash : String → Nat)
    (nodes : List String) (v : Int) :
    (∀ p, dictGet (build_ring hash nodes v) p
        = lastWriteWins (ringPairs hash nodes v) p)
    ∧ (build_ring hash nodes v).length
        = nodes.length * v.toNat - numCollisions hash nodes v := by
  constructor
  · intro p
    rw [build_ring_eq_insertList, dictGet_insertList]
    cases lastWriteWins (ringPairs hash nodes v) p <;> rfl
  · rw [length_build_ring, numCollisions]
    have hle : ((ringPairs hash nodes v).map Prod.fst).dedup.length
        ≤ ((ringPairs hash nodes v).map Prod.fst).length :=
      (List.dedup_sublist _).length_le
    have hlen : ((ringPairs hash nodes v).map Prod.fst).length
        = nodes.length * v.toNat := by
      rw [List.length_map, length_ringPairs]
    omega

/-- C8: `get_node` fails with the empty-ring error exactly when the ring
holds zero positions. -/
theorem getNode_error_iff_empty (hash : String → Nat) (ring : Ring)
    (key : String) :
    get_node hash ring key = Except.error "No nodes in the ring"
      ↔ ring = [] := by
  constructor
  · intro h
    by_contra hne
    rcases get_node_ok hash ring key hne with ⟨p, s, hok, _⟩
    rw [hok] at h
    exact Except.noConfusion h
  · intro h
    subst h
    rfl

theorem getNode_error_iff_empty_witness :
    get_node lengthHash [] "42" = Except.error "No nodes in the ring" :=
  (getNode_error_iff_empty lengthHash [] "42").mpr rfl

/-- C10: constructing the ring with a non-positive `virtual_nodes` silently
succeeds with an empty ring — the constructor validates nothing — and every
subsequent `get_node` call raises the empty-ring error. -/
theorem nonpos_virtual_nodes_empty_ring (hash : String → Nat)
    (nodes : List String) (v : Int) (hn : nodes ≠ []) (hv : v ≤ 0) :
    build_ring hash nodes v = []
    ∧ ∀ key, get_node hash (build_ring hash nodes v) key
        = Except.error "No nodes in the ring" := by
  have h := build_ring_eq_nil_of_nonpos hash nodes v hv
  refine ⟨h, fun key => ?_⟩
  rw [h]
  rfl

theorem nonpos_virtual_nodes_empty_ring_witness :
    build_ring lengthHash ["a"] 0 = []
    ∧ get_node lengthHash (build_ring lengthHash ["a"] 0) "42"
        = Except.error "No nodes in the ring" :=
  ⟨(nonpos_virtual_nodes_empty_ring lengthHash ["a"] 0 (by decide) (by decide)).1,
    (nonpos_virtual_nodes_empty_ring lengthHash ["a"] 0 (by decide)
      (by decide)).2 "42"⟩

/-! ### Claim theorems for the endpoints -/

theorem openedShard_create (hash : String → Nat) (ring : Ring)
    (session_makers : List String) (user : UserCreate) (oc : CreateOutcomes) :
    openedShard (create_user hash ring session_makers user oc).2
      = match get_node hash ring (toString user.user_id) with
        | Except.error _ => none
        | Except.ok shard =>
          if shard ∈ session_makers then some shard else none := by
  rw [create_user]
  cases get_node hash ring (toString user.user_id) with
  | error msg => rfl
  | ok shard =>
    simp only [get_session]
    by_cases hm : shard ∈ session_makers
    · rw [if_pos hm, if_pos hm]
      cases oc.addError with
      | some e => rfl
      | none =>
        cases oc.commitError with
        | some e => rfl
        | none =>
          cases oc.refreshError with
          | some e => rfl
          | none => rfl
    · rw [if_neg hm, if_neg hm]
      rfl

theorem openedShard_get (hash : String → Nat) (ring : Ring)
    (session_makers : List String) (user_id : Int) (og : GetOutcomes) :
    openedShard (get_user hash ring session_makers user_id og).2
      = match get_node hash ring (toString user_id) with
        | Except.error _ => none
        | Except.ok shard =>
          if shard ∈ session_makers then some shard else none := by
  rw [get_user]
  cases get_node hash ring (toString user_id) with
  | error msg => rfl
  | ok shard =>
    simp only [get_session]
    by_cases hm : shard ∈ session_makers
    · rw [if_pos hm, if_pos hm]
      cases og.queryError with
      | some e => rfl
      | none =>
        cases og.queryResult with
        | none => rfl
        | some u => rfl
    · rw [if_neg hm, if_neg hm]
      rfl

/-- C4: `create_user` and a subsequent `get_user` for the same primary key
against the same unchanged ring resolve — and open their session on — the
same shard, so a created row is read back from the shard it was written
to. -/
theorem create_get_same_shard (hash : String → Nat) (ring : Ring)
    (session_makers : List String) (user : UserCreate) (oc : CreateOutcomes)
    (og : GetOutcomes) :
    openedShard (create_user hash ring session_makers user oc).2
      = openedShard (get_user hash ring session_makers user.user_id og).2 := by
  rw [openedShard_create, openedShard_get]

/-- C5 as stated is refuted: two failing runs routed to different shards
with the same cause raise bit-identical `HTTPException(500, str(e))`
errors, so the raised error does not carry the shard (the shard reaches
only the log line). -/
theorem create_error_does_not_carry_shard :
    (create_user lengthHash [(1, "shard_1")] SHARDS
        ⟨7, "n", "r", "e"⟩ ⟨none, some "boom", none⟩).1
      = (create_user lengthHash [(1, "shard_2")] SHARDS
        ⟨7, "n", "r", "e"⟩ ⟨none, some "boom", none⟩).1
    ∧ openedShard (create_user lengthHash [(1, "shard_1")] SHARDS
        ⟨7, "n", "r", "e"⟩ ⟨none, some "boom", none⟩).2 = some "shard_1"
    ∧ openedShard (create_user lengthHash [(1, "shard_2")] SHARDS
        ⟨7, "n", "r", "e"⟩ ⟨none, some "boom", none⟩).2 = some "shard_2" :=
  ⟨rfl, rfl, rfl⟩

/-- C5 amended: when `session.add` or `session.commit` raises, `create_user`
rolls the transaction back and only then releases the session, and fails
with `HTTPException(500, str(e))` — carrying the cause, though not the
shard. -/
theorem create_failure_rollback_and_cause (hash : String → Nat) (ring : Ring)
    (session_makers : List String) (user : UserCreate) (oc : CreateOutcomes)
    (shard : String) (e : String)
    (hres : get_node hash ring (toString user.user_id) = Except.ok shard)
    (hmem : shard ∈ session_makers)
    (herr : oc.addError = some e
      ∨ (oc.addError = none ∧ oc.commitError = some e)) :
    (create_user hash ring session_makers user oc).1
        = Except.error (PyExn.httpException 500 e)
    ∧ ∃ pre, (create_user hash ring session_makers user oc).2
        = pre ++ [Event.sessionRollback, Event.sessionClose] := by
  rw [create_user, hres]
  simp only [get_session]
  rw [if_pos hmem]
  rcases herr with h | ⟨h1, h2⟩
  · rw [h]
    exact ⟨rfl, [Event.sessionOpen shard, Event.sessionAdd], rfl⟩
  · rw [h1, h2]
    exact ⟨rfl,
      [Event.sessionOpen shard, Event.sessionAdd, Event.sessionCommit], rfl⟩

theorem create_failure_rollback_and_cause_witness :
    (create_user lengthHash [(1, "shard_1")] SHARDS ⟨7, "n", "r", "e"⟩
        ⟨none, some "boom", none⟩).1
      = Except.error (PyExn.httpException 500 "boom") :=
  (create_failure_rollback_and_cause lengthHash [(1, "shard_1")] SHARDS
    ⟨7, "n", "r", "e"⟩ ⟨none, some "boom", none⟩ "shard_1" "boom" rfl
    (by decide) (Or.inr ⟨rfl, rfl⟩)).1

/-- C6: whenever the session open succeeds, the trace of `create_user` and
the trace of `get_user` each contain `session.close()` exactly once —
whatever the outcomes of the later session calls are. -/
theorem session_closed_exactly_once (hash : String → Nat) (ring : Ring)
    (session_makers : List String) (user : UserCreate) (oc : CreateOutcomes)
    (user_id : Int) (og : GetOutcomes) (shardC shardG : String)
    (hresC : get_node hash ring (toString user.user_id) = Except.ok shardC)
    (hmemC : shardC ∈ session_makers)
    (hresG : get_node hash ring (toString user_id) = Except.ok shardG)
    (hmemG : shardG ∈ session_makers) :
    ((create_user hash ring session_makers user oc).2).count
        Event.sessionClose = 1
    ∧ ((get_user hash ring session_makers user_id og).2).count
        Event.sessionClose = 1 := by
  constructor
  · rw [create_user, hresC]
    simp only [get_session]
    rw [if_pos hmemC]
    cases oc.addError with
    | some e => rfl
    | none =>
      cases oc.commitError with
      | some e => rfl
      | none =>
        cases oc.refreshError with
        | some e => rfl
        | none => rfl
  · rw [get_user, hresG]
    simp only [get_session]
    rw [if_pos hmemG]
    cases og.queryError with
    | some e => rfl
    | none =>
      cases og.queryResult with
      | none => rfl
      | some u => rfl

theorem session_closed_exactly_once_witness :
    ((create_user lengthHash [(1, "shard_1")] SHARDS ⟨7, "n", "r", "e"⟩
        ⟨none, some "boom", none⟩).2).count Event.sessionClose = 1
    ∧ ((get_user lengthHash [(1, "shard_1")] SHARDS 7 ⟨none, none⟩).2).count
        Event.sessionClose = 1 :=
  session_closed_exactly_once lengthHash [(1, "shard_1")] SHARDS
    ⟨7, "n", "r", "e"⟩ ⟨none, some "boom", none⟩ 7 ⟨none, none⟩
    "shard_1" "shard_1" rfl (by decide) rfl (by decide)

/-- C7: with the session open succeeded and the select completing, `get_user`
fails with the 404 "User not found" error when the select returns no row,
and returns the mapped row when one comes back. -/
theorem get_user_notfound_or_row (hash : String → Nat) (ring : Ring)
    (session_makers : List String) (user_id : Int) (og : GetOutcomes)
    (shard : String)
    (hres : get_node hash ring (toString user_id) = Except.ok shard)
    (hmem : shard ∈ session_makers)
    (hq : og.queryError = none) :
    (og.queryResult = none →
      (get_user hash ring session_makers user_id og).1
        = Except.error (PyExn.httpException 404 "User not found"))
    ∧ (∀ u, og.queryResult = some u →
      (get_user hash ring session_makers user_id og).1 = Except.ok u) := by
  rw [get_user, hres]
  simp only [get_session]
  rw [if_pos hmem, hq]
  constructor
  · intro h
    rw [h]
  · intro u hu
    rw [hu]

theorem get_user_notfound_or_row_witness :
    (get_user lengthHash [(1, "shard_1")] SHARDS 7 ⟨none, none⟩).1
      = Except.error (PyExn.httpException 404 "User not found") :=
  (get_user_notfound_or_row lengthHash [(1, "shard_1")] SHARDS 7 ⟨none, none⟩
    "shard_1" rfl (by decide) rfl).1 rfl

end Sharding
